import Mathlib

/-!
Verification development for the WooCommerce CSV DeepL translator
(`translate.py`): a shallow embedding of its table loader header sniffing,
column classifier, row selector, language-code normalization and batch
translation orchestrator, together with theorems settling the spec claims.

Strings are modelled by Lean `String` (a list of characters); Python's
`str.lower` / `str.upper` / `str.strip` are modelled on the ASCII range
(all vocabulary used by the program is ASCII).  Machine floats appear only
in the `alpha_ratio >= 0.3` test; for sample sizes up to 50 the float
comparison agrees with the exact rational comparison, which is what we use.
-/

namespace WcCsv

/-- The lower/upper case pairs of Python `str.lower` / `str.upper`
restricted to the characters reachable in this program's vocabularies and
scenarios: the ASCII letters, the non-ASCII letters occurring in the alias
and keyword tables, and dotless `ı`, whose upper-case is the ASCII `I`
(Unicode case mapping is not injective, which matters for normalization
idempotence).  The ASCII pairs come first, so lowering `I` gives `i`, as
in Python. -/
def CASE_PAIRS : List (Char × Char) :=
  [('a', 'A'), ('b', 'B'), ('c', 'C'), ('d', 'D'), ('e', 'E'), ('f', 'F'),
   ('g', 'G'), ('h', 'H'), ('i', 'I'), ('j', 'J'), ('k', 'K'), ('l', 'L'),
   ('m', 'M'), ('n', 'N'), ('o', 'O'), ('p', 'P'), ('q', 'Q'), ('r', 'R'),
   ('s', 'S'), ('t', 'T'), ('u', 'U'), ('v', 'V'), ('w', 'W'), ('x', 'X'),
   ('y', 'Y'), ('z', 'Z'),
   ('ı', 'I'),
   ('ñ', 'Ñ'), ('ç', 'Ç'), ('å', 'Å'), ('é', 'É'), ('ž', 'Ž'), ('í', 'Í'),
   ('ł', 'Ł'), ('ö', 'Ö'), ('ő', 'Ő'),
   ('а', 'А'), ('в', 'В'), ('д', 'Д'), ('к', 'К'), ('л', 'Л'), ('о', 'О'),
   ('с', 'С'), ('т', 'Т')]

/-- Uppercase a single character (model of Python `str.upper` on the
reachable characters, pointwise). -/
def upChar (c : Char) : Char :=
  ((CASE_PAIRS.find? (fun p => p.1 == c)).map (fun p => p.2)).getD c

/-- Lowercase a single character (model of Python `str.lower` on the
reachable characters, pointwise). -/
def downChar (c : Char) : Char :=
  ((CASE_PAIRS.find? (fun p => p.2 == c)).map (fun p => p.1)).getD c

/-- Python whitespace on the ASCII range: space and the control characters
9–13 (tab, newline, vertical tab, form feed, carriage return). -/
def isPySpace (c : Char) : Bool :=
  c.toNat == 32 || (9 ≤ c.toNat && c.toNat ≤ 13)

/-- Drop elements satisfying `p` from the right end of a list. -/
def dropRightWhile (p : α → Bool) (l : List α) : List α :=
  (l.reverse.dropWhile p).reverse

/-- Strip elements satisfying `p` from both ends (Python `str.strip` with a
character class). -/
def stripChars (p : Char → Bool) (l : List Char) : List Char :=
  dropRightWhile p (l.dropWhile p)

/-- Python `s.strip()` (ASCII whitespace model). -/
def pyStrip (s : String) : String :=
  String.mk (stripChars isPySpace s.toList)

/-- Python `s.lower()` (on the modelled character range). -/
def pyLower (s : String) : String :=
  String.mk (s.toList.map downChar)

/-- Python `s.upper()` (on the modelled character range). -/
def pyUpper (s : String) : String :=
  String.mk (s.toList.map upChar)

/-- Does `needle` start the list `hay`? -/
def listStartsWith : List Char → List Char → Bool
  | _, [] => true
  | [], _ :: _ => false
  | h :: hs, n :: ns => h == n && listStartsWith hs ns

/-- Does `needle` occur as a contiguous run inside `hay`? -/
def listHasSub (hay needle : List Char) : Bool :=
  match hay with
  | [] => needle.isEmpty
  | _ :: hs => listStartsWith hay needle || listHasSub hs needle

/-- Python `needle in hay` for strings: substring containment. -/
def pyIn (needle hay : String) : Bool :=
  listHasSub hay.toList needle.toList

/-- The `LANG_ALIASES` table of `translate.py`: friendly language names and
codes mapped to DeepL target codes.  Python iterates a dict with no
duplicate keys; a first-match association list is equivalent. -/
def LANG_ALIASES : List (String × String) :=
  [("bg", "BG"), ("bulgarian", "BG"),
   ("cs", "CS"), ("czech", "CS"),
   ("da", "DA"), ("danish", "DA"),
   ("de", "DE"), ("german", "DE"), ("deutsch", "DE"),
   ("el", "EL"), ("greek", "EL"),
   ("en", "EN"), ("english", "EN"),
   ("en-us", "EN-US"), ("english-us", "EN-US"), ("en_us", "EN-US"),
   ("en-gb", "EN-GB"), ("english-gb", "EN-GB"), ("en_gb", "EN-GB"), ("british", "EN-GB"),
   ("es", "ES"), ("spanish", "ES"), ("espanol", "ES"), ("español", "ES"),
   ("et", "ET"), ("estonian", "ET"),
   ("fi", "FI"), ("finnish", "FI"),
   ("fr", "FR"), ("french", "FR"), ("français", "FR"), ("francais", "FR"),
   ("hu", "HU"), ("hungarian", "HU"), ("magyar", "HU"),
   ("id", "ID"), ("indonesian", "ID"),
   ("it", "IT"), ("italian", "IT"),
   ("ja", "JA"), ("japanese", "JA"),
   ("ko", "KO"), ("korean", "KO"),
   ("lt", "LT"), ("lithuanian", "LT"),
   ("lv", "LV"), ("latvian", "LV"),
   ("nb", "NB"), ("norwegian", "NB"), ("bokmal", "NB"), ("bokmål", "NB"),
   ("nl", "NL"), ("dutch", "NL"),
   ("pl", "PL"), ("polish", "PL"),
   ("pt", "PT-PT"), ("portuguese", "PT-PT"), ("pt-pt", "PT-PT"), ("pt_pt", "PT-PT"),
   ("pt-br", "PT-BR"), ("pt_br", "PT-BR"), ("brazilian", "PT-BR"),
   ("ro", "RO"), ("romanian", "RO"),
   ("ru", "RU"), ("russian", "RU"),
   ("sk", "SK"), ("slovak", "SK"),
   ("sl", "SL"), ("slovenian", "SL"), ("slovene", "SL"),
   ("sv", "SV"), ("swedish", "SV"),
   ("tr", "TR"), ("turkish", "TR"),
   ("uk", "UK"), ("ukrainian", "UK"),
   ("zh", "ZH"), ("chinese", "ZH"), ("zh-cn", "ZH"), ("zh_cn", "ZH"),
   ("ko-kr", "KO"), ("ja-jp", "JA")]

/-- Python `LANG_ALIASES.get(code, default)`: first association for `code`. -/
def aliasLookup (code : String) : Option String :=
  (LANG_ALIASES.find? (fun p => p.1 == code)).map (fun p => p.2)

/-- The canonical key built by `normalize_lang`:
`s.strip().lower().replace(" ", "").replace("_", "-")`. -/
def canonicalKey (s : String) : String :=
  String.mk ((((pyLower (pyStrip s)).toList.filter (fun c => c ≠ ' ')).map
    (fun c => if c == '_' then '-' else c)))

/-- Function `normalize_lang` of `translate.py`: alias-table lookup on the canonical
key, falling back to `s.strip().upper()`. -/
def normalize_lang (s : String) : String :=
  match aliasLookup (canonicalKey s) with
  | some v => v
  | none => pyUpper (pyStrip s)

/- ---------- Table loader: header/delimiter sniffing ---------- -/

/-- The `EXPECTED_COL_HINTS` vocabulary of `translate.py`. -/
def EXPECTED_COL_HINTS : List String :=
  ["name", "description", "short description", "regular price", "sku",
   "categories", "images"]

/-- Python `line.rstrip("\n\r")`. -/
def rstripNewline (l : List Char) : List Char :=
  dropRightWhile (fun c => c == '\n' || c == '\r') l

/-- Python `line.split(sep)` for a one-character separator.  Splitting the
empty string yields `[""]`, as in Python. -/
def splitOnChar (sep : Char) : List Char → List (List Char)
  | [] => [[]]
  | c :: cs =>
    let r := splitOnChar sep cs
    if c == sep then [] :: r
    else
      match r with
      | [] => [[c]]
      | a :: as => (c :: a) :: as

/-- One candidate field of a sniffed line: `p.strip().strip('"').lower()`. -/
def cleanField (f : List Char) : List Char :=
  (stripChars (fun c => c == '"') (stripChars isPySpace f)).map downChar

/-- The hint score of one line under one candidate delimiter:
`sum(1 for p in parts if p in EXPECTED_COL_HINTS)`. -/
def lineScore (line : String) (sep : Char) : Nat :=
  ((splitOnChar sep (rstripNewline line.toList)).map
      (fun f => String.mk (cleanField f))).countP
    (fun p => EXPECTED_COL_HINTS.contains p)

/-- Scan lines in order from index `i`; on each line try the delimiters in
order and accept the first `(line, delimiter)` scoring at least 2. -/
def scanLinesFrom (seps : List Char) : Nat → List String → Option (Nat × Char)
  | _, [] => none
  | i, l :: ls =>
    match seps.find? (fun s => 2 ≤ lineScore l s) with
    | some s => some (i, s)
    | none => scanLinesFrom seps (i + 1) ls

/-- Function `_find_header_and_sep` of `translate.py`.  Each element of
`encVariants` is the file decoded under one candidate encoding (decoding
uses `errors="ignore"`, so it never fails).  Faithful to the source, the
line-reading step `[next(f) for _ in range(max_lines)]` raises
`StopIteration` when the file has fewer than `maxLines` physical lines,
which the bare `except` turns into skipping that encoding entirely.
Returns `(headerIndex, delimiter, encodingIndex)`. -/
def findHeaderAndSep (seps : List Char) (maxLines : Nat) :
    Nat → List (List String) → Option (Nat × Char × Nat)
  | _, [] => none
  | e, lines :: rest =>
    if lines.length < maxLines then
      findHeaderAndSep seps maxLines (e + 1) rest
    else
      match scanLinesFrom seps 0 (lines.take maxLines) with
      | some (i, s) => some (i, s, e)
      | none => findHeaderAndSep seps maxLines (e + 1) rest

/-- Reading the first `maxLines` lines as the spec describes it ("read up
to the first 100 lines").  Modelled from the spec: the spec's loader reads
`min maxLines (file length)` lines instead of failing on short files. -/
def specReadLines (lines : List String) (maxLines : Nat) : List String :=
  lines.take maxLines

/-- Header sniffing as the spec describes it, for one decoded file.
Modelled from the spec: identical to the source's scan except that a file
shorter than `maxLines` lines is still scanned. -/
def specFindHeader (seps : List Char) (maxLines : Nat) (lines : List String) :
    Option (Nat × Char) :=
  scanLinesFrom seps 0 (specReadLines lines maxLines)

/- ---------- Column classifier ---------- -/

/-- The `NEVER_TRANSLATE_KEYS` vocabulary of `translate.py`. -/
def NEVER_TRANSLATE_KEYS : List String :=
  ["id", "sku", "slug", "price", "regular price", "sale price", "stock",
   "weight", "length", "width", "height",
   "download", "image", "images", "gallery", "virtual", "tax", "shipping",
   "menu order", "status", "catalog visibility",
   "date", "parent", "upsells", "cross-sells", "external url",
   "button text", "position", "reviews", "sold", "rating",
   "manage stock", "stock status", "allow backorders", "purchase note",
   "categories", "tags", "brands", "swatches attributes"]

/-- The `HTML_LIKE_KEYS` vocabulary of `translate.py`. -/
def HTML_LIKE_KEYS : List String :=
  ["description", "content", "excerpt", "short description"]

/-- The `INGREDIENTS_KEYS` vocabulary of `translate.py`. -/
def INGREDIENTS_KEYS : List String :=
  ["ingredients", "ingredienti", "ingredientes", "ingrédients",
   "ingrediens", "inhaltstoffe", "inhaltsstoffe",
   "zloženie", "zlozenie", "složení", "slozeni", "skład", "sklad",
   "összetevők", "osszetevok",
   "sastojci", "sastav", "sestavine", "состав", "склад", "ingrediente"]

/-- The prose-indicating name keywords tested by `looks_textual`. -/
def TEXTUAL_KEYS : List String :=
  ["name", "title", "description", "short description", "excerpt",
   "content", "meta: rank_math_title", "meta: rank_math_description",
   "yoast", "og:", "twitter:", "seo"]

/-- Function `is_never_translate` of `translate.py`. -/
def is_never_translate (col : String) : Bool :=
  let c := pyLower col
  NEVER_TRANSLATE_KEYS.any (fun k => pyIn k c) ||
    (pyIn "attribute " c && pyIn " name" c)

/-- Function `is_ingredient_col` of `translate.py`. -/
def is_ingredient_col (col : String) : Bool :=
  INGREDIENTS_KEYS.any (fun k => pyIn k (pyLower col))

/-- Python `any(ch.isalpha() for ch in s)` (ASCII model). -/
def anyAlpha (s : String) : Bool :=
  s.toList.any (fun c => c.isAlpha)

/-- Does the column name contain an HTML-bearing keyword? -/
def hasHtmlKey (col : String) : Bool :=
  HTML_LIKE_KEYS.any (fun k => pyIn k (pyLower col))

/-- The test `count / len >= 0.3` on a nonempty sample, stated over the
integers: for `0 < len` it is equivalent to the exact rational comparison
`3/10 ≤ count/len` (proved in `ratioAtLeast_iff_rat` below), which in turn
agrees with the source's float comparison for every sample size up to 50
(the nearest floats to `0.3` and to any `count/len` with denominator at
most 50 compare identically). -/
def ratioAtLeast (count len : Nat) : Bool :=
  3 * len ≤ 10 * count

/-- Function `looks_textual` of `translate.py`.  Here `cells` is the column as produced
by the loader (`dtype=str`, `keep_default_na=False`): every cell is a
string, empty when absent, so `series.dropna()` drops nothing and
`head(50)` is `take 50`, and `series.dtype == object` holds. -/
def looks_textual (col : String) (cells : List String) : Bool :=
  if is_never_translate col then false
  else
    let c := pyLower col
    if pyIn "attribute " c && pyIn " value(s)" c then true
    else if TEXTUAL_KEYS.any (fun k => pyIn k c) then true
    else
      let sample := cells.take 50
      if sample.length == 0 then false
      else ratioAtLeast (sample.countP anyAlpha) sample.length

/-- The content heuristic as claim C3 words it.  Modelled from the spec:
sample up to the first 50 NON-EMPTY cells; an all-empty sample classifies
as skip. -/
def specTextualContent (cells : List String) : Bool :=
  let sample := (cells.filter (fun s => !s.isEmpty)).take 50
  if sample.length == 0 then false
  else ratioAtLeast (sample.countP anyAlpha) sample.length

/-- The `only_cols` branch of `choose_columns`: an authoritative override.
A table is given column-major: each entry is a column name with its cells
in row order. -/
def chooseOnly (only : List String) :
    List (String × List String) → List String × List String × List String
  | [] => ([], [], [])
  | (c, _) :: rest =>
    let r := chooseOnly only rest
    if only.contains c then
      (c :: r.1, (if hasHtmlKey c then c :: r.2.1 else r.2.1), r.2.2)
    else
      (r.1, r.2.1, c :: r.2.2)

/-- The heuristic branch of `choose_columns`. -/
def chooseHeur (excludeIngredients : Bool) :
    List (String × List String) → List String × List String × List String
  | [] => ([], [], [])
  | (c, cells) :: rest =>
    let r := chooseHeur excludeIngredients rest
    if is_never_translate c then
      (r.1, r.2.1, c :: r.2.2)
    else if excludeIngredients && is_ingredient_col c then
      (r.1, r.2.1, c :: r.2.2)
    else if looks_textual c cells || is_ingredient_col c then
      (c :: r.1, (if hasHtmlKey c then c :: r.2.1 else r.2.1), r.2.2)
    else
      (r.1, r.2.1, c :: r.2.2)

/-- Function `choose_columns` of `translate.py`: returns
`(cols, html_cols, skipped)`. -/
def choose_columns (df : List (String × List String))
    (excludeIngredients : Bool) (only : List String) :
    List String × List String × List String :=
  if only.isEmpty then chooseHeur excludeIngredients df
  else chooseOnly only df

/- ---------- DeepL batch call: retry/backoff state machine ---------- -/

/-- One outcome of attempting the HTTP POST of `deepl_translate_batch`:
either a transport-level exception, or a response with an HTTP status and
(for 2xx) the parsed `translations` array, each item carrying its `text`
and its `detected_source_language` (already defaulted to `""`). -/
inductive DeeplAttempt where
  | transportFail : DeeplAttempt
  | response (status : Nat) (items : List (String × String)) : DeeplAttempt
deriving DecidableEq

/-- The two failure modes `deepl_translate_batch` can raise: the transport
exception re-raised, or `HTTPError` from `raise_for_status`. -/
inductive BatchFailure where
  | transport : BatchFailure
  | http (status : Nat) : BatchFailure
deriving DecidableEq

/-- The statuses retried by `deepl_translate_batch`:
`(429, 500, 502, 503, 504)`. -/
def retryableStatus (st : Nat) : Bool :=
  st == 429 || st == 500 || st == 502 || st == 503 || st == 504

/-- Is this attempt outcome one the retry loop reacts to with
backoff-and-retry (transport failure or retryable status)? -/
def isRetryFail : DeeplAttempt → Bool
  | .transportFail => true
  | .response st _ => retryableStatus st

/-- The observable trace of one `deepl_translate_batch` call: its result,
how many HTTP attempts were made, and the sequence of backoff sleeps
performed (in time-units, exact rationals). -/
structure BatchCallRun where
  result : Except BatchFailure (List String × List String)
  attempts : Nat
  delays : List ℚ

/-- The payload extracted from a 2xx response:
`([item["text"]], [item.get("detected_source_language", "")])`. -/
def respPayload (items : List (String × String)) :
    List String × List String :=
  (items.map (fun it => it.1), items.map (fun it => it.2))

/-- The retry loop of `deepl_translate_batch`.  `o i` is the outcome of
the `i`-th HTTP attempt, `backoff` the current sleep length, `ds` the
sleeps performed so far, and the last argument the number of retries still
allowed (the source's `tries < 5` means 4 retries follow the first
attempt).  A retryable failure with no retries left, and any
non-retryable HTTP failure, are raised; a status below 400 passes
`raise_for_status` and returns the payload. -/
def deeplLoop (o : Nat → DeeplAttempt) (idx : Nat) (backoff : ℚ)
    (ds : List ℚ) : Nat → BatchCallRun
  | 0 =>
    match o idx with
    | .transportFail => ⟨.error .transport, 1, ds⟩
    | .response st items =>
      if 400 ≤ st then ⟨.error (.http st), 1, ds⟩
      else ⟨.ok (respPayload items), 1, ds⟩
  | r + 1 =>
    match o idx with
    | .transportFail =>
      let rest := deeplLoop o (idx + 1) (backoff * (9 / 5))
        (ds ++ [backoff]) r
      ⟨rest.result, rest.attempts + 1, rest.delays⟩
    | .response st items =>
      if retryableStatus st then
        let rest := deeplLoop o (idx + 1) (backoff * (9 / 5))
          (ds ++ [backoff]) r
        ⟨rest.result, rest.attempts + 1, rest.delays⟩
      else if 400 ≤ st then ⟨.error (.http st), 1, ds⟩
      else ⟨.ok (respPayload items), 1, ds⟩

/-- One whole `deepl_translate_batch` call on a nonempty batch: first
attempt with backoff `1.5`, at most 4 retries after it. -/
def deeplBatchRun (o : Nat → DeeplAttempt) : BatchCallRun :=
  deeplLoop o 0 (3 / 2) [] 4

/- ---------- Translation batch orchestrator ---------- -/

/-- The per-batch reconciliation of `main`: given the batch submitted and
the remote result items, recover `(trs, det)` and pad a short result with
the original tail values and empty detected-language tags
(`trs += batch[len(trs):]`, `det += [""] * diff`).  Both pads are empty
when the result is not shorter, also when it is longer (Python slicing
past the end and multiplying a list by a negative count both give `[]`). -/
def reconcile (batch : List String) (res : List (String × String)) :
    List String × List String :=
  let trs := res.map (fun it => it.1)
  let det := res.map (fun it => it.2)
  if trs.length ≠ batch.length then
    (trs ++ batch.drop trs.length,
     det ++ List.replicate (batch.length - trs.length) "")
  else (trs, det)

/-- The per-column batch loop of `main` (`for i in range(0, len(values),
50)`), with the remote call abstracted by the oracle `g`: `g k` is the
`translations` array returned for the `k`-th batch of the column. -/
def translateBatches (g : Nat → List (String × String)) (k : Nat) :
    List String → List String × List String
  | [] => ([], [])
  | v :: vs =>
    let batch := (v :: vs).take 50
    let rest := (v :: vs).drop 50
    let first := reconcile batch (g k)
    let more := translateBatches g (k + 1) rest
    (first.1 ++ more.1, first.2 ++ more.2)
termination_by vs => vs.length + 1
decreasing_by simp [List.length_drop]; omega

/-- The operation the spec names `translateColumn`: the whole per-column loop. -/
def translateColumn (g : Nat → List (String × String))
    (values : List String) : List String × List String :=
  translateBatches g 0 values

/- ---------- Table, row selector, frame effect ---------- -/

/-- A loaded table: ordered column names and rows of string cells, each row
aligned positionally with the column list. -/
structure Table where
  columns : List String
  rows : List (List String)
deriving DecidableEq

/-- The positional index of a column name (first occurrence), `none` when
the column is absent. -/
def colIdx (t : Table) (name : String) : Option Nat :=
  t.columns.findIdx? (fun c => c == name)

/-- One cell of a row by column position (cells are strings, absent cells
empty). -/
def cellAt (r : List String) (j : Nat) : String :=
  r.getD j ""

/-- The column of a table as a list of cell values
(`df[col].fillna("").astype(str).tolist()`). -/
def colValues (t : Table) (name : String) : List String :=
  match colIdx t name with
  | none => []
  | some j => t.rows.map (fun r => cellAt r j)

/-- The regex metacharacters of Python `re` (outside character classes). -/
def REGEX_SPECIALS : List Char :=
  ['.', '^', '$', '*', '+', '?', '\x7b', '\x7d', '[', ']', '\\', '|',
   '(', ')']

/-- Compile a pattern of the modelled regex fragment to the literal
character sequence it searches for.  Parentheses form transparent groups
(an `re` group captures but matches exactly its literal content, so
`tea (loose)` searches for the text `tea loose`); any other metacharacter,
or an unbalanced parenthesis (an `re.error` crash in the program), puts
the pattern outside the modelled fragment (`none`) — no theorem below
draws a conclusion about such patterns.  The second argument is the
current group-nesting depth. -/
def compilePattern : List Char → Nat → Option (List Char)
  | [], d => if d == 0 then some [] else none
  | c :: cs, d =>
    if c == '(' then compilePattern cs (d + 1)
    else if c == ')' then
      (if d == 0 then none else compilePattern cs (d - 1))
    else if REGEX_SPECIALS.contains c then none
    else (compilePattern cs d).map (fun l => c :: l)

/-- The pandas `Series.str.contains(pat)` cell test: `pat` is an `re`
pattern and the cell matches when `re.search` finds it.  On the modelled
fragment (literal characters and transparent groups) this is substring
search for the compiled literal; for a pattern made of literal characters
only, it is exactly substring containment of the pattern itself. -/
def strContainsRe (pat hay : String) : Bool :=
  match compilePattern pat.toList 0 with
  | some lits => listHasSub hay.toList lits
  | none => false

/-- The category row filter of `main`: when a nonempty pattern is given
(Python truthiness: `None` and `""` both skip the filter) and a
`Categories` column exists, keep the rows whose lower-cased cell matches
the lower-cased pattern under `str.contains` (regex search); otherwise the
table is unchanged. -/
def filterByCategory (t : Table) (cat : String) : Table :=
  if cat.isEmpty then t
  else
    match colIdx t "Categories" with
    | none => t
    | some j =>
      { t with rows :=
          t.rows.filter (fun r => strContainsRe (pyLower cat) (pyLower (cellAt r j))) }

/-- The row cap of `main`: `df.head(limit)` applied only when the argument
is a positive integer (`if args.limit_rows and args.limit_rows > 0`). -/
def applyRowLimit (t : Table) (n : Int) : Table :=
  if 0 < n then { t with rows := t.rows.take n.toNat } else t

/-- The row-selection phase of `main`: category filter first, then cap. -/
def selectRows (t : Table) (cat : String) (n : Int) : Table :=
  applyRowLimit (filterByCategory t cat) n

/-- Writing one translated column back (`df[col] = out_vals`): cell `j` of
row `i` becomes `vals[i]`.  pandas raises unless `vals` has exactly one
entry per row; a completing run satisfies that (the orchestrator's length
invariant), and on such inputs this models the assignment exactly while
never changing the row count. -/
def setCells (j : Nat) : List (List String) → List String → List (List String)
  | [], _ => []
  | r :: rs, [] => r :: setCells j rs []
  | r :: rs, v :: vs => r.set j v :: setCells j rs vs

/-- Replace the cells of one named column. -/
def setColumn (t : Table) (name : String) (vals : List String) : Table :=
  match colIdx t name with
  | none => t
  | some j => { t with rows := setCells j t.rows vals }

/-- The translation phase of `main`: columns classified for translation
are translated one at a time, in order, each reading its values from the
current table and writing the reconciled results back.  `g col k` is the
remote result for batch `k` of column `col` (the markup flag only shapes
the remote request, which the oracle abstracts). -/
def translateTable (g : String → Nat → List (String × String))
    (t : Table) (cols : List String) : Table :=
  cols.foldl
    (fun acc col =>
      setColumn acc col (translateColumn (g col) (colValues acc col)).1)
    t

/-- Python `str.isupper` on the ASCII range: at least one cased character
and no cased character lowercase. -/
def pyIsUpper (s : String) : Bool :=
  s.toList.any (fun c => c.isAlpha) &&
    s.toList.all (fun c => !c.isAlpha || c.isUpper)

/-- The target-language shape check of `main`:
`len in (2,5) and isupper and (len == 2 or "-" in s)`. -/
def validLangShape (t : String) : Bool :=
  (t.length == 2 || t.length == 5) && pyIsUpper t &&
    (t.length == 2 || pyIn "-" t)

/- ===================== Theorems ===================== -/

/- ---------- Classifier helper lemmas ---------- -/

/-- Building a string from characters and listing them are mutually
inverse. -/
theorem toList_mk (l : List Char) : (String.mk l).toList = l := rfl

/-- The integer ratio test coincides with the exact rational comparison on
a nonempty sample. -/
theorem ratioAtLeast_iff_rat (c l : Nat) (hl : 0 < l) :
    ratioAtLeast c l = true ↔ (3 : ℚ) / 10 ≤ (c : ℚ) / l := by
  rw [ratioAtLeast, div_le_div_iff₀ (by norm_num) (by exact_mod_cast hl)]
  rw [decide_eq_true_iff]
  constructor
  · intro h
    have : (3 * l : ℚ) ≤ (10 * c : ℚ) := by exact_mod_cast h
    linarith
  · intro h
    have : (3 * l : ℚ) ≤ (10 * c : ℚ) := by linarith
    exact_mod_cast this

/-- A column whose name matches a never-translate keyword is skipped by
the heuristic branch, wherever it occurs in the table. -/
theorem chooseHeur_never_skip (ex : Bool) (df : List (String × List String))
    (col : String) (hmem : col ∈ df.map Prod.fst)
    (hnever : is_never_translate col = true) :
    col ∈ (chooseHeur ex df).2.2 := by
  induction df with
  | nil => simp at hmem
  | cons hd tl ih =>
    obtain ⟨c, cells⟩ := hd
    simp only [List.map_cons, List.mem_cons] at hmem
    simp only [chooseHeur]
    rcases hmem with rfl | h
    · rw [hnever]
      simp
    · have hrec := ih h
      split_ifs <;> simp [hrec]

/-- A column listed in a nonempty `only_cols` goes to translate, and to
markup when its name carries an HTML-bearing keyword. -/
theorem chooseOnly_sel (only : List String) (df : List (String × List String))
    (col : String) (hmem : col ∈ df.map Prod.fst)
    (honly : only.contains col = true) :
    col ∈ (chooseOnly only df).1 ∧
      (hasHtmlKey col = true → col ∈ (chooseOnly only df).2.1) := by
  induction df with
  | nil => simp at hmem
  | cons hd tl ih =>
    obtain ⟨c, cells⟩ := hd
    simp only [List.map_cons, List.mem_cons] at hmem
    simp only [chooseOnly]
    rcases hmem with rfl | h
    · rw [honly]
      simp only [if_true]
      refine ⟨by simp, fun hh => ?_⟩
      rw [hh]
      simp
    · have hrec := ih h
      split_ifs with h1 h2 <;>
        exact ⟨by simp [hrec.1], fun hh => by simp [hrec.2 hh]⟩

/-- Markup columns selected by the override branch are translate columns. -/
theorem chooseOnly_html_sub (only : List String)
    (df : List (String × List String)) :
    ∀ c ∈ (chooseOnly only df).2.1, c ∈ (chooseOnly only df).1 := by
  induction df with
  | nil => simp [chooseOnly]
  | cons hd tl ih =>
    obtain ⟨c, cells⟩ := hd
    simp only [chooseOnly]
    intro x hx
    split_ifs at hx ⊢ with h1 h2
    · rcases List.mem_cons.1 hx with rfl | hx
      · simp
      · simp [ih x hx]
    · simp [ih x hx]
    · exact ih x hx

/-- Markup columns selected by the heuristic branch are translate
columns. -/
theorem chooseHeur_html_sub (ex : Bool) (df : List (String × List String)) :
    ∀ c ∈ (chooseHeur ex df).2.1, c ∈ (chooseHeur ex df).1 := by
  induction df with
  | nil => simp [chooseHeur]
  | cons hd tl ih =>
    obtain ⟨c, cells⟩ := hd
    simp only [chooseHeur]
    intro x hx
    split_ifs at hx ⊢ with h1 h2 h3 h4
    · exact ih x hx
    · exact ih x hx
    · rcases List.mem_cons.1 hx with rfl | hx
      · simp
      · simp [ih x hx]
    · simp [ih x hx]
    · exact ih x hx

/-- The override branch distributes every column name between translate
and skip, multiplicity included. -/
theorem chooseOnly_count (only : List String)
    (df : List (String × List String)) (c : String) :
    (df.map Prod.fst).count c =
      (chooseOnly only df).1.count c + (chooseOnly only df).2.2.count c := by
  induction df with
  | nil => simp [chooseOnly]
  | cons hd tl ih =>
    obtain ⟨x, cells⟩ := hd
    simp only [List.map_cons, chooseOnly]
    split_ifs with h1 <;>
      · simp only [List.count_cons, ih]
        ring

/-- The heuristic branch distributes every column name between translate
and skip, multiplicity included. -/
theorem chooseHeur_count (ex : Bool) (df : List (String × List String))
    (c : String) :
    (df.map Prod.fst).count c =
      (chooseHeur ex df).1.count c + (chooseHeur ex df).2.2.count c := by
  induction df with
  | nil => simp [chooseHeur]
  | cons hd tl ih =>
    obtain ⟨x, cells⟩ := hd
    simp only [List.map_cons, chooseHeur]
    split_ifs with h1 h2 h3 <;>
      · simp only [List.count_cons, ih]
        ring

/- ---------- Claim C2 (header sniffing; code bug on short files) ---------- -/

/-- The candidate delimiters of `sniff_read_csv`. -/
def CSV_SEPS : List Char := [',', ';', '\t', '|']

/-- The scenario file of the spec: two comment lines, then the header
`Name;SKU;Regular price;Description`, and nothing else (a file shorter
than 100 physical lines). -/
def shortScenarioFile : List String :=
  ["# komentar 1\n", "# komentar 2\n",
   "Name;SKU;Regular price;Description\n"]

/-- Claim C2: for every file in which some line among the first 100 scores
at least 2 under some delimiter, sniffing accepts the first such
combination; the scenario file must yield header index 2 and delimiter
`;`.  The code violates this: reading `[next(f) for _ in range(100)]`
raises `StopIteration` on any file with fewer than 100 lines, so sniffing
skips every encoding of the scenario file and finds no header, even
though line 2 scores 4.  Sniffing behaves as claimed only once the file
has at least 100 lines. -/
theorem claim_C2_sniffing :
    2 ≤ lineScore "Name;SKU;Regular price;Description\n" ';' ∧
    specFindHeader CSV_SEPS 100 shortScenarioFile = some (2, ';') ∧
    findHeaderAndSep CSV_SEPS 100 0 [shortScenarioFile] = none ∧
    findHeaderAndSep CSV_SEPS 100 0
        [shortScenarioFile ++ List.replicate 97 "x\n"] = some (2, ';', 0) := by
  refine ⟨by decide, by decide, by decide, by decide⟩

/- ---------- Claim C3 (content heuristic; corrected) ---------- -/

/-- Claim C3 as stated is false on the code: the sample is the first 50
cells of the column, not the first 50 non-empty cells (`dropna()` does not
drop empty strings).  Column `"zz"` with cells `["", "", "", "Hello"]` has
a non-empty-cell sample fraction of 1 ≥ 0.3, so the claim assigns it to
translate, but the code samples all four cells, gets 1/4 < 0.3, and skips
the column. -/
theorem claim_C3_counterexample :
    choose_columns [("zz", ["", "", "", "Hello"])] false [] =
      ([], [], ["zz"]) ∧
    specTextualContent ["", "", "", "Hello"] = true ∧
    looks_textual "zz" ["", "", "", "Hello"] = false := by
  refine ⟨by decide, by decide, by decide⟩

/-- Claim C3 amended: for a column not decided by the name-based rules,
classification samples the first 50 cells (empty cells included), and the
column goes to translate iff the sample is nonempty and the fraction of
sampled cells containing an alphabetic character is at least 0.3; a
column with no cells, or whose sample has no alphabetic cell at all
(in particular an all-empty sample), goes to skip. -/
theorem claim_C3_amended (col : String) (cells : List String)
    (hnever : is_never_translate col = false)
    (hattr : (pyIn "attribute " (pyLower col) &&
      pyIn " value(s)" (pyLower col)) = false)
    (htext : TEXTUAL_KEYS.any (fun k => pyIn k (pyLower col)) = false)
    (hing : is_ingredient_col col = false) :
    (col ∈ (choose_columns [(col, cells)] false []).1 ↔
      (cells ≠ [] ∧ (3 : ℚ) / 10 ≤
        ((cells.take 50).countP anyAlpha : ℚ) / (cells.take 50).length)) ∧
    ((∀ c ∈ cells.take 50, anyAlpha c = false) →
      choose_columns [(col, cells)] false [] = ([], [], [col])) := by
  have hlt : looks_textual col cells =
      (if (cells.take 50).length == 0 then false
       else ratioAtLeast ((cells.take 50).countP anyAlpha)
         (cells.take 50).length) := by
    rw [looks_textual]
    rw [if_neg (by simp [hnever]), if_neg (by simp [hattr]),
      if_neg (by simp [htext])]
  have hcc : choose_columns [(col, cells)] false [] =
      (if looks_textual col cells then ([col], if hasHtmlKey col then [col] else [], [])
       else ([], [], [col])) := by
    by_cases hl : looks_textual col cells = true
    · simp [choose_columns, chooseHeur, hnever, hing, hl]
    · rw [Bool.not_eq_true] at hl
      simp [choose_columns, chooseHeur, hnever, hing, hl]
  constructor
  · rw [hcc]
    constructor
    · intro hmem
      by_cases hl : looks_textual col cells = true
      · rw [hlt] at hl
        by_cases hnil : cells = []
        · subst hnil
          simp at hl
        · have hpos : 0 < (cells.take 50).length := by
            simp [List.length_take]
            exact List.length_pos.2 hnil
          refine ⟨hnil, ?_⟩
          rw [if_neg (by simpa using Nat.pos_iff_ne_zero.1 hpos)] at hl
          exact (ratioAtLeast_iff_rat _ _ hpos).1 hl
      · rw [Bool.not_eq_true] at hl
        rw [hl] at hmem
        simp at hmem
    · rintro ⟨hnil, hfrac⟩
      have hpos : 0 < (cells.take 50).length := by
        simp [List.length_take]
        exact List.length_pos.2 hnil
      have : looks_textual col cells = true := by
        rw [hlt, if_neg (by simpa using Nat.pos_iff_ne_zero.1 hpos)]
        exact (ratioAtLeast_iff_rat _ _ hpos).2 hfrac
      rw [this]
      simp
  · intro hall
    have hcount : (cells.take 50).countP anyAlpha = 0 := by
      rw [List.countP_eq_zero]
      intro a ha
      simp [hall a ha]
    rw [hcc]
    have : looks_textual col cells = false := by
      rw [hlt, hcount]
      split_ifs with h
      · rfl
      · rw [ratioAtLeast]
        simp only [Nat.mul_zero, decide_eq_false_iff_not, not_le]
        have : (cells.take 50).length ≠ 0 := by simpa using h
        omega
    rw [this]
    simp

/-- Witness for `claim_C3_amended` at a concrete column. -/
theorem claim_C3_amended_witness :
    choose_columns [("zz", ["123", "456"])] false [] = ([], [], ["zz"]) :=
  (claim_C3_amended "zz" ["123", "456"] (by decide) (by decide) (by decide)
    (by decide)).2 (by decide)

/- ---------- Claim C4 (never-translate precedence vs onlyColumns) ---------- -/

/-- Claim C4: with empty `onlyColumns`, a column whose name matches a
never-translate keyword (or the attribute-label pattern) is skipped no
matter its other keywords or content; with nonempty `onlyColumns`
containing the name, the column is translated (and marked up when its
name carries an HTML-bearing keyword). -/
theorem claim_C4_never_vs_only (df : List (String × List String)) (ex : Bool)
    (only : List String) (col : String)
    (hnever : is_never_translate col = true)
    (hmem : col ∈ df.map Prod.fst) :
    col ∈ (choose_columns df ex []).2.2 ∧
    (only ≠ [] → only.contains col = true →
      col ∈ (choose_columns df ex only).1 ∧
      (hasHtmlKey col = true → col ∈ (choose_columns df ex only).2.1)) := by
  constructor
  · rw [choose_columns]
    simpa using chooseHeur_never_skip ex df col hmem hnever
  · intro hne hsel
    rw [choose_columns, if_neg (by simpa using hne)]
    exact chooseOnly_sel only df col hmem hsel

/-- Witness for `claim_C4_never_vs_only`: the `SKU` column is skipped by
the heuristics but translated under `--only-cols SKU,Description`. -/
theorem claim_C4_witness :
    "SKU" ∈ (choose_columns [("Name", ["a"]), ("SKU", ["b"])] false []).2.2 ∧
    "SKU" ∈ (choose_columns [("Name", ["a"]), ("SKU", ["b"])] false
      ["SKU", "Description"]).1 := by
  refine ⟨(claim_C4_never_vs_only [("Name", ["a"]), ("SKU", ["b"])] false []
    "SKU" (by decide) (by decide)).1, ?_⟩
  exact ((claim_C4_never_vs_only [("Name", ["a"]), ("SKU", ["b"])] false
    ["SKU", "Description"] "SKU" (by decide) (by decide)).2
    (by decide) (by decide)).1

/- ---------- Claim C5 (partition invariants) ---------- -/

/-- Claim C5: for every table and every flag/override combination, markup
is a subset of translate, and every column name is distributed between
translate and skip with its multiplicity; when column names are unique
(the Table invariant) each column lands in exactly one of the two. -/
theorem claim_C5_partition (df : List (String × List String)) (ex : Bool)
    (only : List String) :
    (∀ c ∈ (choose_columns df ex only).2.1, c ∈ (choose_columns df ex only).1) ∧
    (∀ c, (df.map Prod.fst).count c =
      (choose_columns df ex only).1.count c +
        (choose_columns df ex only).2.2.count c) ∧
    ((df.map Prod.fst).Nodup → ∀ c ∈ df.map Prod.fst,
      (c ∈ (choose_columns df ex only).1 ∧
        c ∉ (choose_columns df ex only).2.2) ∨
      (c ∈ (choose_columns df ex only).2.2 ∧
        c ∉ (choose_columns df ex only).1)) := by
  have hsub : ∀ c ∈ (choose_columns df ex only).2.1,
      c ∈ (choose_columns df ex only).1 := by
    rw [choose_columns]
    split_ifs
    · exact chooseHeur_html_sub ex df
    · exact chooseOnly_html_sub only df
  have hcount : ∀ c, (df.map Prod.fst).count c =
      (choose_columns df ex only).1.count c +
        (choose_columns df ex only).2.2.count c := by
    intro c
    rw [choose_columns]
    split_ifs
    · exact chooseHeur_count ex df c
    · exact chooseOnly_count only df c
  refine ⟨hsub, hcount, fun hnd c hc => ?_⟩
  have h1 : (df.map Prod.fst).count c = 1 :=
    List.count_eq_one_of_mem hnd hc
  have h2 := hcount c
  rw [h1] at h2
  rcases Nat.eq_zero_or_pos ((choose_columns df ex only).1.count c) with hz | hp
  · right
    refine ⟨List.count_pos_iff.1 (by omega), ?_⟩
    intro hmem
    have := List.count_pos_iff.2 hmem
    omega
  · left
    refine ⟨List.count_pos_iff.1 hp, ?_⟩
    intro hmem
    have := List.count_pos_iff.2 hmem
    omega

/-- Witness for `claim_C5_partition` at a concrete table. -/
theorem claim_C5_witness :
    ("Description" ∈ (choose_columns
        [("Description", ["<p>x</p>"]), ("SKU", ["1"])] false []).1 ∧
      "Description" ∉ (choose_columns
        [("Description", ["<p>x</p>"]), ("SKU", ["1"])] false []).2.2) ∨
    ("Description" ∈ (choose_columns
        [("Description", ["<p>x</p>"]), ("SKU", ["1"])] false []).2.2 ∧
      "Description" ∉ (choose_columns
        [("Description", ["<p>x</p>"]), ("SKU", ["1"])] false []).1) :=
  (claim_C5_partition [("Description", ["<p>x</p>"]), ("SKU", ["1"])]
    false []).2.2 (by decide) "Description" (by decide)

/- ---------- Claim C1 (batch loop length and padding) ---------- -/

/-- Evaluating `translateBatches` on the empty column. -/
theorem translateBatches_nil (g : Nat → List (String × String)) (k : Nat) :
    translateBatches g k [] = ([], []) := by
  simp [translateBatches]

/-- One unfolding of `translateBatches` on a nonempty column. -/
theorem translateBatches_cons (g : Nat → List (String × String)) (k : Nat)
    (v : String) (vs : List String) :
    translateBatches g k (v :: vs) =
      ((reconcile ((v :: vs).take 50) (g k)).1 ++
          (translateBatches g (k + 1) ((v :: vs).drop 50)).1,
        (reconcile ((v :: vs).take 50) (g k)).2 ++
          (translateBatches g (k + 1) ((v :: vs).drop 50)).2) := by
  rw [translateBatches]

/-- Reconciliation restores the batch length whenever the remote result is
not longer than the batch. -/
theorem reconcile_length (batch : List String)
    (res : List (String × String)) (h : res.length ≤ batch.length) :
    (reconcile batch res).1.length = batch.length ∧
      (reconcile batch res).2.length = batch.length := by
  rw [reconcile]
  split_ifs with hne
  · simp only [List.length_append, List.length_map, List.length_drop,
      List.length_replicate] at *
    omega
  · simp only [List.length_map] at *
    omega

/-- Length invariant of the batch loop, by fuel induction: if no batch
result is longer than its batch, the loop returns one translation and one
detected-language tag per input value. -/
theorem translateBatches_length (g : Nat → List (String × String)) :
    ∀ (n k : Nat) (vs : List String), vs.length ≤ n →
      (∀ m, (g (k + m)).length ≤ ((vs.drop (50 * m)).take 50).length) →
      (translateBatches g k vs).1.length = vs.length ∧
        (translateBatches g k vs).2.length = vs.length := by
  intro n
  induction n with
  | zero =>
    intro k vs hlen _
    have : vs = [] := List.length_eq_zero.1 (Nat.le_zero.1 hlen)
    subst this
    simp [translateBatches_nil]
  | succ n ih =>
    intro k vs hlen hg
    cases vs with
    | nil => simp [translateBatches_nil]
    | cons v vs =>
      rw [translateBatches_cons]
      have h0 : (g k).length ≤ ((v :: vs).take 50).length := by
        have := hg 0
        simpa using this
      have hrec := reconcile_length ((v :: vs).take 50) (g k) h0
      have hshift : ∀ m, (g (k + 1 + m)).length ≤
          ((((v :: vs).drop 50).drop (50 * m)).take 50).length := by
        intro m
        have h1 := hg (m + 1)
        have e1 : 50 * (m + 1) = 50 + 50 * m := by ring
        have e2 : k + (m + 1) = k + 1 + m := by omega
        rw [e1, e2] at h1
        rw [List.drop_drop]
        exact h1
      have hlen2 : ((v :: vs).drop 50).length ≤ n := by
        simp only [List.length_drop, List.length_cons] at *
        omega
      have hih := ih (k + 1) ((v :: vs).drop 50) hlen2 hshift
      simp only [List.length_append, hrec.1, hrec.2, hih.1, hih.2,
        List.length_take, List.length_drop, List.length_cons]
      omega

/-- Padding invariant of the batch loop: at every batch position past the
end of that batch's (short) remote result, the output carries the original
input value and an empty detected-language tag. -/
theorem translateBatches_pad (g : Nat → List (String × String)) :
    ∀ (n k : Nat) (vs : List String), vs.length ≤ n →
      (∀ m, (g (k + m)).length ≤ ((vs.drop (50 * m)).take 50).length) →
      ∀ m j, (g (k + m)).length ≤ j →
        j < ((vs.drop (50 * m)).take 50).length →
        (translateBatches g k vs).1[50 * m + j]? = vs[50 * m + j]? ∧
          (translateBatches g k vs).2[50 * m + j]? = some "" := by
  intro n
  induction n with
  | zero =>
    intro k vs hlen _ m j _ hj
    have : vs = [] := List.length_eq_zero.1 (Nat.le_zero.1 hlen)
    subst this
    simp at hj
  | succ n ih =>
    intro k vs hlen hg m j hjres hj
    cases vs with
    | nil => simp at hj
    | cons v vs =>
      rw [translateBatches_cons]
      have h0 : (g k).length ≤ ((v :: vs).take 50).length := by
        have := hg 0
        simpa using this
      have hrec := reconcile_length ((v :: vs).take 50) (g k) h0
      cases m with
      | zero =>
        simp only [Nat.mul_zero, Nat.zero_add, List.drop_zero] at hjres hj ⊢
        have hjb : j < ((v :: vs).take 50).length := hj
        have hjfirst : j < (reconcile ((v :: vs).take 50) (g k)).1.length := by
          rw [hrec.1]; exact hjb
        have hresj : (g k).length ≤ j := by simpa using hjres
        constructor
        · rw [List.getElem?_append_left hjfirst]
          rw [reconcile]
          have hne : ((g k).map (fun it => it.1)).length ≠
              ((v :: vs).take 50).length := by
            simp only [List.length_map]
            omega
          rw [if_pos hne]
          rw [List.getElem?_append_right (by simpa using hresj)]
          simp only [List.length_map]
          rw [List.getElem?_drop]
          have e : (g k).length + (j - (g k).length) = j := by omega
          rw [e]
          exact List.getElem?_take_of_lt (by
            have := (v :: vs).length_take 50
            omega)
        · have hjsnd : j < (reconcile ((v :: vs).take 50) (g k)).2.length := by
            rw [hrec.2]; exact hjb
          rw [List.getElem?_append_left hjsnd]
          rw [reconcile]
          have hne : ((g k).map (fun it => it.1)).length ≠
              ((v :: vs).take 50).length := by
            simp only [List.length_map]
            omega
          rw [if_pos hne]
          rw [List.getElem?_append_right (by simpa using hresj)]
          simp only [List.length_map]
          exact List.getElem?_replicate_of_lt (by omega)
      | succ m =>
        by_cases hlong : (v :: vs).length ≤ 50
        · exfalso
          have : (v :: vs).drop (50 * (m + 1)) = [] :=
            List.drop_eq_nil_of_le (by
              have : 50 ≤ 50 * (m + 1) := by omega
              omega)
          rw [this] at hj
          simp at hj
        · push_neg at hlong
          have hbatch : ((v :: vs).take 50).length = 50 := by
            simp only [List.length_take]
            omega
          have hshift : ∀ m, (g (k + 1 + m)).length ≤
              ((((v :: vs).drop 50).drop (50 * m)).take 50).length := by
            intro m
            have h1 := hg (m + 1)
            have e1 : 50 * (m + 1) = 50 + 50 * m := by ring
            have e2 : k + (m + 1) = k + 1 + m := by omega
            rw [e1, e2] at h1
            rw [List.drop_drop]
            exact h1
          have hlen2 : ((v :: vs).drop 50).length ≤ n := by
            simp only [List.length_drop, List.length_cons] at *
            omega
          have hjres2 : (g (k + 1 + m)).length ≤ j := by
            have e2 : k + (m + 1) = k + 1 + m := by omega
            rw [e2] at hjres
            exact hjres
          have hj2 : j < ((((v :: vs).drop 50).drop (50 * m)).take 50).length := by
            have e1 : 50 * (m + 1) = 50 + 50 * m := by ring
            rw [e1] at hj
            rw [List.drop_drop]
            exact hj
          have hih := ih (k + 1) ((v :: vs).drop 50) hlen2 hshift m j hjres2 hj2
          have eidx : 50 * (m + 1) + j =
              (reconcile ((v :: vs).take 50) (g k)).1.length + (50 * m + j) := by
            rw [hrec.1, hbatch]
            ring
          have eidx2 : 50 * (m + 1) + j =
              (reconcile ((v :: vs).take 50) (g k)).2.length + (50 * m + j) := by
            rw [hrec.2, hbatch]
            ring
          constructor
          · rw [eidx, List.getElem?_append_right (Nat.le_add_right _ _)]
            rw [Nat.add_sub_cancel_left]
            rw [hih.1]
            rw [List.getElem?_drop]
            have e : 50 + (50 * m + j) = 50 * (m + 1) + j := by ring
            rw [e, ← eidx]
          · rw [eidx2, List.getElem?_append_right (Nat.le_add_right _ _)]
            rw [Nat.add_sub_cancel_left]
            exact hih.2

/-- Claim C1 as stated is false on the code: a remote result LONGER than
its batch is appended whole (`batch[len(trs):]` and `[""] * diff` are both
empty for a longer result), so the output is longer than the input.  A
one-value column whose batch answer holds two items yields two output
values. -/
theorem claim_C1_counterexample :
    translateColumn (fun _ => [("x", "EN"), ("y", "FR")]) ["a"] =
      (["x", "y"], ["EN", "FR"]) ∧
    (translateColumn (fun _ => [("x", "EN"), ("y", "FR")]) ["a"]).1.length ≠
      (["a"] : List String).length := by
  have h : translateColumn (fun _ => [("x", "EN"), ("y", "FR")]) ["a"] =
      (["x", "y"], ["EN", "FR"]) := by
    rw [translateColumn, translateBatches_cons]
    simp [translateBatches_nil, reconcile]
  exact ⟨h, by rw [h]; decide⟩

/-- Claim C1 amended: whenever no batch's remote result is longer than the
batch it answers (in particular in every shorter-result scenario), the
per-column loop returns exactly one translated value and one
detected-language tag per input value, the values being processed as
contiguous batches of at most 50 in order; and at every batch position at
or past the end of that batch's result, the output holds the original
untranslated input value and an empty detected-language tag. -/
theorem claim_C1_batch_loop (g : Nat → List (String × String))
    (values : List String)
    (hg : ∀ k, (g k).length ≤ ((values.drop (50 * k)).take 50).length) :
    ((translateColumn g values).1.length = values.length ∧
      (translateColumn g values).2.length = values.length) ∧
    (∀ k j, (g k).length ≤ j → j < ((values.drop (50 * k)).take 50).length →
      (translateColumn g values).1[50 * k + j]? = values[50 * k + j]? ∧
        (translateColumn g values).2[50 * k + j]? = some "") := by
  have hg0 : ∀ m, (g (0 + m)).length ≤
      ((values.drop (50 * m)).take 50).length := by
    intro m
    simpa using hg m
  constructor
  · exact translateBatches_length g values.length 0 values le_rfl hg0
  · intro k j hjres hj
    exact translateBatches_pad g values.length 0 values le_rfl hg0 k j
      (by simpa using hjres) hj

/-- Witness for `claim_C1_batch_loop`: a 2-value column whose single batch
answers with one item keeps its length and pads position 1 with the
original value and an empty tag. -/
theorem claim_C1_witness :
    (translateColumn (fun k => if k = 0 then [("t", "EN")] else [])
        ["a", "b"]).1.length = 2 ∧
    (translateColumn (fun k => if k = 0 then [("t", "EN")] else [])
        ["a", "b"]).1[1]? = some "b" ∧
    (translateColumn (fun k => if k = 0 then [("t", "EN")] else [])
        ["a", "b"]).2[1]? = some "" := by
  have hg : ∀ k, ((fun k => if k = 0 then [("t", "EN")] else
      ([] : List (String × String))) k).length ≤
      (((["a", "b"] : List String).drop (50 * k)).take 50).length := by
    intro k
    cases k with
    | zero => decide
    | succ n => simp
  have h := claim_C1_batch_loop
    (fun k => if k = 0 then [("t", "EN")] else []) ["a", "b"] hg
  have hpad := h.2 0 1 (by decide) (by decide)
  exact ⟨h.1.1, by simpa using hpad.1, by simpa using hpad.2⟩

/- ---------- Claim C6 (retry budget and backoff curve) ---------- -/

/-- Every retryable HTTP status is an error status (at least 400), so the
exhausted loop's final `raise_for_status` does raise. -/
theorem retryableStatus_ge_400 (st : Nat) (h : retryableStatus st = true) :
    400 ≤ st := by
  rw [retryableStatus] at h
  simp only [Bool.or_eq_true, beq_iff_eq] at h
  rcases h with ((((rfl | rfl) | rfl) | rfl) | rfl) <;> omega

/-- The retry loop makes at least one and at most `r + 1` attempts. -/
theorem deeplLoop_attempts (o : Nat → DeeplAttempt) :
    ∀ (r idx : Nat) (b : ℚ) (ds : List ℚ),
      1 ≤ (deeplLoop o idx b ds r).attempts ∧
        (deeplLoop o idx b ds r).attempts ≤ r + 1 := by
  intro r
  induction r with
  | zero =>
    intro idx b ds
    cases h : o idx <;> (simp [deeplLoop, h]; try (split_ifs <;> simp))
  | succ r ih =>
    intro idx b ds
    cases h : o idx with
    | transportFail =>
      have := ih (idx + 1) (b * (9 / 5)) (ds ++ [b])
      simp only [deeplLoop, h]
      omega
    | response st items =>
      simp only [deeplLoop, h]
      split_ifs with h1 h2
      · have := ih (idx + 1) (b * (9 / 5)) (ds ++ [b])
        simp only
        omega
      · simp
      · simp

/-- The sleeps performed by the retry loop always form the geometric
backoff curve: one sleep before every attempt after the first, starting at
the current backoff and multiplied by 9/5 each time. -/
theorem deeplLoop_delays (o : Nat → DeeplAttempt) :
    ∀ (r idx : Nat) (b : ℚ) (ds : List ℚ),
      (deeplLoop o idx b ds r).delays =
        ds ++ (List.range ((deeplLoop o idx b ds r).attempts - 1)).map
          (fun i => b * (9 / 5) ^ i) := by
  intro r
  induction r with
  | zero =>
    intro idx b ds
    cases h : o idx <;> (simp [deeplLoop, h]; try (split_ifs <;> simp))
  | succ r ih =>
    intro idx b ds
    have key : ∀ (hstep : (deeplLoop o idx b ds (r + 1)).delays =
          (deeplLoop o (idx + 1) (b * (9 / 5)) (ds ++ [b]) r).delays)
        (hatt : (deeplLoop o idx b ds (r + 1)).attempts =
          (deeplLoop o (idx + 1) (b * (9 / 5)) (ds ++ [b]) r).attempts + 1),
        (deeplLoop o idx b ds (r + 1)).delays =
          ds ++ (List.range ((deeplLoop o idx b ds (r + 1)).attempts - 1)).map
            (fun i => b * (9 / 5) ^ i) := by
      intro hstep hatt
      obtain ⟨n, hn⟩ : ∃ n,
          (deeplLoop o (idx + 1) (b * (9 / 5)) (ds ++ [b]) r).attempts =
            n + 1 := by
        have h1 := (deeplLoop_attempts o r (idx + 1) (b * (9 / 5)) (ds ++ [b])).1
        exact ⟨(deeplLoop o (idx + 1) (b * (9 / 5)) (ds ++ [b]) r).attempts - 1,
          by omega⟩
      rw [hstep, hatt, hn, ih (idx + 1) (b * (9 / 5)) (ds ++ [b]), hn]
      have hfun : ((fun i => b * (9 / 5 : ℚ) ^ i) ∘ Nat.succ) =
          fun i => (b * (9 / 5)) * (9 / 5 : ℚ) ^ i := by
        funext i
        simp only [Function.comp]
        rw [pow_succ]
        ring
      simp only [Nat.add_sub_cancel]
      rw [List.range_succ_eq_map, List.map_cons, List.map_map, hfun]
      simp
    cases h : o idx with
    | transportFail =>
      exact key (by simp only [deeplLoop, h]) (by simp only [deeplLoop, h])
    | response st items =>
      by_cases h1 : retryableStatus st = true
      · exact key (by simp only [deeplLoop, h, h1, if_true])
          (by simp only [deeplLoop, h, h1, if_true])
      · rw [Bool.not_eq_true] at h1
        simp only [deeplLoop, h, h1, Bool.false_eq_true, if_false]
        split_ifs <;> simp

/-- When every attempt the budget allows fails retryably, the loop uses the
whole budget and raises. -/
theorem deeplLoop_exhaust (o : Nat → DeeplAttempt) :
    ∀ (r idx : Nat) (b : ℚ) (ds : List ℚ),
      (∀ i, i ≤ r → isRetryFail (o (idx + i)) = true) →
      (deeplLoop o idx b ds r).attempts = r + 1 ∧
        ∃ e, (deeplLoop o idx b ds r).result = .error e := by
  intro r
  induction r with
  | zero =>
    intro idx b ds h
    have h0 := h 0 le_rfl
    rw [Nat.add_zero] at h0
    cases ho : o idx with
    | transportFail => exact ⟨by simp [deeplLoop, ho], ⟨.transport, by simp [deeplLoop, ho]⟩⟩
    | response st items =>
      rw [ho, isRetryFail] at h0
      have h400 := retryableStatus_ge_400 st h0
      exact ⟨by simp [deeplLoop, ho, h400], ⟨.http st, by simp [deeplLoop, ho, h400]⟩⟩
  | succ r ih =>
    intro idx b ds h
    have h0 := h 0 (Nat.zero_le _)
    rw [Nat.add_zero] at h0
    have hrec := ih (idx + 1) (b * (9 / 5)) (ds ++ [b]) (fun i hi => by
      have := h (i + 1) (by omega)
      have e : idx + (i + 1) = idx + 1 + i := by omega
      rw [e] at this
      exact this)
    cases ho : o idx with
    | transportFail =>
      refine ⟨?_, ?_⟩
      · simp only [deeplLoop, ho]
        omega
      · obtain ⟨e, he⟩ := hrec.2
        exact ⟨e, by simp only [deeplLoop, ho]; exact he⟩
    | response st items =>
      rw [ho, isRetryFail] at h0
      refine ⟨?_, ?_⟩
      · simp only [deeplLoop, ho, h0, if_true]
        omega
      · obtain ⟨e, he⟩ := hrec.2
        exact ⟨e, by simp only [deeplLoop, ho, h0, if_true]; exact he⟩

/-- Claim C6: per batch the remote call is attempted at most 5 times; the
sleeps always form the backoff curve 1.5, 1.5·1.8, 1.5·1.8², … (one sleep
per retry); five retryable failures exhaust the budget and raise; and a
non-retryable HTTP failure on an attempt is raised at once, with one
attempt and no sleep when it is the first outcome. -/
theorem claim_C6_retry_policy (o : Nat → DeeplAttempt) :
    (1 ≤ (deeplBatchRun o).attempts ∧ (deeplBatchRun o).attempts ≤ 5) ∧
    (deeplBatchRun o).delays =
      (List.range ((deeplBatchRun o).attempts - 1)).map
        (fun i => (3 / 2 : ℚ) * (9 / 5) ^ i) ∧
    ((∀ i, i < 5 → isRetryFail (o i) = true) →
      (deeplBatchRun o).attempts = 5 ∧
        ∃ e, (deeplBatchRun o).result = .error e) ∧
    (∀ st items, o 0 = .response st items → retryableStatus st = false →
      400 ≤ st →
      (deeplBatchRun o).result = .error (.http st) ∧
        (deeplBatchRun o).attempts = 1 ∧ (deeplBatchRun o).delays = []) := by
  refine ⟨⟨(deeplLoop_attempts o 4 0 (3 / 2) []).1,
    (deeplLoop_attempts o 4 0 (3 / 2) []).2⟩, ?_, ?_, ?_⟩
  · simpa using deeplLoop_delays o 4 0 (3 / 2) []
  · intro h
    exact deeplLoop_exhaust o 4 0 (3 / 2) [] (fun i hi => by
      simpa using h i (by omega))
  · intro st items ho hret h400
    rw [deeplBatchRun]
    simp [deeplLoop, ho, hret, h400]

/-- Witness for `claim_C6_retry_policy`: an immediate 401 gives one
attempt, no sleep, an HTTP error; five transport failures exhaust the
budget. -/
theorem claim_C6_witness :
    ((deeplBatchRun (fun i => if i = 0 then .response 401 [] else
        .transportFail)).result = .error (.http 401) ∧
      (deeplBatchRun (fun i => if i = 0 then .response 401 [] else
        .transportFail)).attempts = 1 ∧
      (deeplBatchRun (fun i => if i = 0 then .response 401 [] else
        .transportFail)).delays = []) ∧
    ((deeplBatchRun (fun _ => .transportFail)).attempts = 5 ∧
      ∃ e, (deeplBatchRun (fun _ => .transportFail)).result = .error e) :=
  ⟨(claim_C6_retry_policy (fun i => if i = 0 then .response 401 [] else
      .transportFail)).2.2.2 401 [] rfl (by decide) (by decide),
   (claim_C6_retry_policy (fun _ => .transportFail)).2.2.1
      (fun i _ => rfl)⟩

/- ---------- Claim C7 (row selection) ---------- -/

/-- Claim C7 as stated is false on the code: pandas `str.contains` treats
the given string as a regular expression, not a literal substring.  With
pattern `tea (loose)` the parentheses are a regex group, so the program
keeps the row whose cell is `tea loose` (which does NOT contain the
substring `tea (loose)`) and drops the row whose cell is the literal
`tea (loose)` (which DOES contain it) — the opposite of the claim. -/
theorem claim_C7_counterexample :
    (selectRows ⟨["Name", "Categories"],
        [["a", "tea (loose)"], ["b", "tea loose"]]⟩ "tea (loose)" 0).rows =
      [["b", "tea loose"]] ∧
    pyIn (pyLower "tea (loose)") (pyLower "tea (loose)") = true ∧
    pyIn (pyLower "tea (loose)") (pyLower "tea loose") = false := by
  refine ⟨by decide, by decide, by decide⟩

/-- Patterns entirely free of regex metacharacters compile to themselves. -/
theorem compilePattern_literal (l : List Char)
    (h : l.all (fun c => !(REGEX_SPECIALS.contains c)) = true) :
    compilePattern l 0 = some l := by
  induction l with
  | nil => rfl
  | cons c cs ih =>
    simp only [List.all_cons, Bool.and_eq_true, Bool.not_eq_eq_eq_not,
      Bool.not_true] at h
    have hc : REGEX_SPECIALS.contains c = false := h.1
    have hne1 : (c == '(') = false := by
      rcases hbe : c == '(' with _ | _
      · rfl
      · rw [beq_iff_eq] at hbe
        rw [hbe] at hc
        exact absurd hc (by decide)
    have hne2 : (c == ')') = false := by
      rcases hbe : c == ')' with _ | _
      · rfl
      · rw [beq_iff_eq] at hbe
        rw [hbe] at hc
        exact absurd hc (by decide)
    rw [compilePattern, hne1, hne2, hc]
    simp only [Bool.false_eq_true, if_false]
    rw [ih (by simpa [List.all_eq_true] using h.2)]
    rfl

/-- No lower-case side of a case pair is a regex metacharacter. -/
theorem casePairs_fst_not_special :
    ∀ p ∈ CASE_PAIRS, REGEX_SPECIALS.contains p.1 = false := by decide

/-- Lowercasing never produces a regex metacharacter. -/
theorem downChar_not_special (c : Char)
    (h : REGEX_SPECIALS.contains c = false) :
    REGEX_SPECIALS.contains (downChar c) = false := by
  cases hf : CASE_PAIRS.find? (fun p => p.2 == c) with
  | none =>
    have hd : downChar c = c := by rw [downChar, hf]; rfl
    rw [hd]
    exact h
  | some p =>
    have hd : downChar c = p.1 := by rw [downChar, hf]; rfl
    rw [hd]
    exact casePairs_fst_not_special p (List.mem_of_find?_eq_some hf)

/-- Lowercasing a metacharacter-free pattern keeps it metacharacter-free. -/
theorem pyLower_literal (s : String)
    (h : s.toList.all (fun c => !(REGEX_SPECIALS.contains c)) = true) :
    (pyLower s).toList.all (fun c => !(REGEX_SPECIALS.contains c)) = true := by
  rw [pyLower, toList_mk, List.all_map]
  rw [List.all_eq_true] at h ⊢
  intro c hc
  have hcs := h c hc
  simp only [Bool.not_eq_eq_eq_not, Bool.not_true] at hcs
  simp only [Function.comp_apply, Bool.not_eq_eq_eq_not, Bool.not_true]
  exact downChar_not_special c hcs

/-- Claim C7 amended: the category filter runs first — keeping exactly the
rows whose lower-cased `Categories` cell matches the lower-cased pattern
under `str.contains` (regex search), which for patterns free of regex
metacharacters is exactly case-insensitive substring containment — and
silently doing nothing when that column is absent; the positive row limit
is applied afterwards, to the filtered rows; columns are untouched and row
order is preserved (the surviving rows are a sublist of the input). -/
theorem claim_C7_amended (t : Table) (cat : String) (n : Int) :
    (selectRows t cat n).columns = t.columns ∧
    (selectRows t cat n).rows.Sublist t.rows ∧
    ("Categories" ∉ t.columns →
      (selectRows t cat n).rows =
        (if 0 < n then t.rows.take n.toNat else t.rows)) ∧
    (∀ j, colIdx t "Categories" = some j → cat.isEmpty = false →
      (selectRows t cat n).rows =
        (if 0 < n then
          (t.rows.filter
            (fun r => strContainsRe (pyLower cat) (pyLower (cellAt r j)))).take
            n.toNat
         else t.rows.filter
            (fun r => strContainsRe (pyLower cat) (pyLower (cellAt r j))))) ∧
    (cat.toList.all (fun c => !(REGEX_SPECIALS.contains c)) = true →
      ∀ x, strContainsRe (pyLower cat) x = pyIn (pyLower cat) x) := by
  have hfc : (filterByCategory t cat).columns = t.columns := by
    rw [filterByCategory]
    split_ifs
    · rfl
    · cases colIdx t "Categories" <;> rfl
  refine ⟨?_, ?_, ?_, ?_, ?_⟩
  · rw [selectRows, applyRowLimit]
    split_ifs <;> exact hfc
  · rw [selectRows, applyRowLimit]
    have hsub : (filterByCategory t cat).rows.Sublist t.rows := by
      rw [filterByCategory]
      split_ifs
      · exact List.Sublist.refl _
      · cases colIdx t "Categories"
        · exact List.Sublist.refl _
        · exact List.filter_sublist _
    split_ifs
    · exact (List.take_sublist _ _).trans hsub
    · exact hsub
  · intro habs
    have hnone : colIdx t "Categories" = none := by
      rw [colIdx, List.findIdx?_eq_none_iff]
      intro x hx
      rw [beq_eq_false_iff_ne]
      intro he
      exact habs (he ▸ hx)
    have : filterByCategory t cat = t := by
      rw [filterByCategory]
      split_ifs
      · rfl
      · rw [hnone]
    rw [selectRows, this, applyRowLimit]
    split_ifs <;> rfl
  · intro j hj hcat
    have hft : filterByCategory t cat =
        ⟨t.columns,
          t.rows.filter
            (fun r => strContainsRe (pyLower cat) (pyLower (cellAt r j)))⟩ := by
      rw [filterByCategory, if_neg (by simp [hcat]), hj]
    rw [selectRows, hft, applyRowLimit]
    split_ifs <;> rfl
  · intro hlit x
    rw [strContainsRe,
      compilePattern_literal (pyLower cat).toList (pyLower_literal cat hlit)]
    rfl

/-- Witness for `claim_C7_amended` at a concrete table: a literal pattern
filters by substring, the filter runs before the cap, and the first
matching row survives. -/
theorem claim_C7_amended_witness :
    (selectRows ⟨["Name", "Categories"],
        [["a", "Tea"], ["b", "Coffee"], ["c", "tea bags"]]⟩ "tea" 1).rows =
      [["a", "Tea"]] ∧
    strContainsRe (pyLower "tea") "coffee tea" = pyIn (pyLower "tea") "coffee tea" := by
  refine ⟨?_, (claim_C7_amended ⟨["Name", "Categories"],
    [["a", "Tea"], ["b", "Coffee"], ["c", "tea bags"]]⟩ "tea" 1).2.2.2.2
    (by decide) "coffee tea"⟩
  have h := (claim_C7_amended ⟨["Name", "Categories"],
    [["a", "Tea"], ["b", "Coffee"], ["c", "tea bags"]]⟩ "tea" 1).2.2.2.1
    1 (by decide) (by decide)
  rw [h]
  decide

/- ---------- Claim C8 (frame effect of the translation phase) ---------- -/

/-- Writing one column's values never changes the row count. -/
theorem setCells_length (j : Nat) :
    ∀ (rows : List (List String)) (vals : List String),
      (setCells j rows vals).length = rows.length := by
  intro rows
  induction rows with
  | nil => intro vals; rfl
  | cons r rs ih =>
    intro vals
    cases vals with
    | nil => simp [setCells, ih]
    | cons v vs => simp [setCells, ih]

/-- Writing column `j` leaves every other column position unchanged in
every row. -/
theorem setCells_cellAt_ne (j j2 : Nat) (hne : j ≠ j2) :
    ∀ (rows : List (List String)) (vals : List String),
      (setCells j rows vals).map (fun r => cellAt r j2) =
        rows.map (fun r => cellAt r j2) := by
  have hrow : ∀ (r : List String) (v : String),
      cellAt (r.set j v) j2 = cellAt r j2 := by
    intro r v
    rw [cellAt, cellAt, List.getD_eq_getElem?_getD, List.getD_eq_getElem?_getD,
      List.getElem?_set_ne hne]
  intro rows
  induction rows with
  | nil => intro vals; rfl
  | cons r rs ih =>
    intro vals
    cases vals with
    | nil => simp [setCells, ih, hrow]
    | cons v vs => simp [setCells, ih, hrow]

/-- Writing a column never changes the column list. -/
theorem setColumn_columns (t : Table) (name : String) (vals : List String) :
    (setColumn t name vals).columns = t.columns := by
  rw [setColumn]
  cases colIdx t name <;> rfl

/-- Writing a column never changes the row count. -/
theorem setColumn_rows_length (t : Table) (name : String)
    (vals : List String) :
    (setColumn t name vals).rows.length = t.rows.length := by
  rw [setColumn]
  cases colIdx t name
  · rfl
  · exact setCells_length _ _ _

/-- Two distinct present column names occupy distinct positions (their
first occurrences differ). -/
theorem colIdx_ne (t : Table) (a c : String) (j j2 : Nat)
    (ha : colIdx t a = some j) (hc : colIdx t c = some j2) (hne : a ≠ c) :
    j ≠ j2 := by
  rw [colIdx, List.findIdx?_eq_some_iff_getElem] at ha hc
  obtain ⟨hja, ha1, _⟩ := ha
  obtain ⟨hjc, hc1, _⟩ := hc
  rw [beq_iff_eq] at ha1 hc1
  intro he
  subst he
  exact hne (by rw [← ha1, ← hc1])

/-- Writing a column leaves the values of every other column unchanged. -/
theorem setColumn_colValues_ne (t : Table) (name c : String)
    (vals : List String) (hne : name ≠ c) :
    colValues (setColumn t name vals) c = colValues t c := by
  cases hn : colIdx t name with
  | none => rw [setColumn, hn]
  | some j =>
    have hcols : (setColumn t name vals).columns = t.columns :=
      setColumn_columns t name vals
    have hidx : colIdx (setColumn t name vals) c = colIdx t c := by
      rw [colIdx, colIdx, hcols]
    cases hcj : colIdx t c with
    | none => rw [colValues, colValues, hidx, hcj]
    | some j2 =>
      rw [colValues, colValues, hidx, hcj]
      rw [setColumn, hn]
      exact setCells_cellAt_ne j j2 (colIdx_ne t name c j j2 hn hcj hne) _ _

/-- Claim C8: the translation phase preserves the column list (set and
order) and the row count, and every column not classified for translation
keeps every one of its cell values; only translate-columns can change. -/
theorem claim_C8_frame (g : String → Nat → List (String × String)) :
    ∀ (cols : List String) (t : Table),
      (translateTable g t cols).columns = t.columns ∧
      (translateTable g t cols).rows.length = t.rows.length ∧
      (∀ c, c ∉ cols →
        colValues (translateTable g t cols) c = colValues t c) := by
  intro cols
  induction cols with
  | nil => exact fun t => ⟨rfl, rfl, fun c _ => rfl⟩
  | cons col rest ih =>
    intro t
    have hstep : translateTable g t (col :: rest) =
        translateTable g
          (setColumn t col (translateColumn (g col) (colValues t col)).1)
          rest := rfl
    obtain ⟨ihc, ihl, ihv⟩ :=
      ih (setColumn t col (translateColumn (g col) (colValues t col)).1)
    refine ⟨?_, ?_, ?_⟩
    · rw [hstep, ihc, setColumn_columns]
    · rw [hstep, ihl, setColumn_rows_length]
    · intro c hc
      have hne : col ≠ c := fun he => hc (he ▸ List.mem_cons_self _ _)
      have hrest : c ∉ rest := fun hr => hc (List.mem_cons_of_mem _ hr)
      rw [hstep, ihv c hrest, setColumn_colValues_ne t col c _ hne]

/-- Witness for `claim_C8_frame`: translating `Name` leaves `SKU`
untouched. -/
theorem claim_C8_witness :
    colValues (translateTable (fun _ _ => [("T", "EN")])
        ⟨["Name", "SKU"], [["a", "1"], ["b", "2"]]⟩ ["Name"]) "SKU" =
      colValues ⟨["Name", "SKU"], [["a", "1"], ["b", "2"]]⟩ "SKU" :=
  (claim_C8_frame (fun _ _ => [("T", "EN")]) ["Name"]
    ⟨["Name", "SKU"], [["a", "1"], ["b", "2"]]⟩).2.2 "SKU" (by decide)

/- ---------- Claims C9 and C10 (language-code normalization) ---------- -/

/-- ASCII uppercasing is idempotent, character by character. -/
theorem upChar_upChar (c : Char) : upChar (upChar c) = upChar c := by
  cases h : CASE_PAIRS.find? (fun p => p.1 == c) with
  | none =>
    have hc : upChar c = c := by rw [upChar, h]; rfl
    rw [hc, hc]
  | some p =>
    have hp := List.mem_of_find?_eq_some h
    have hv : upChar c = p.2 := by rw [upChar, h]; rfl
    rw [hv]
    fin_cases hp <;> decide

/-- Uppercasing never creates or destroys whitespace. -/
theorem isPySpace_upChar (c : Char) : isPySpace (upChar c) = isPySpace c := by
  cases h : CASE_PAIRS.find? (fun p => p.1 == c) with
  | none =>
    have hc : upChar c = c := by rw [upChar, h]; rfl
    rw [hc]
  | some p =>
    have hp := List.mem_of_find?_eq_some h
    have hc : p.1 = c := by
      have := List.find?_some h
      rwa [beq_iff_eq] at this
    have hv : upChar c = p.2 := by rw [upChar, h]; rfl
    rw [hv, ← hc]
    fin_cases hp <;> decide

/-- Left-stripping is idempotent. -/
theorem dropWhile_idem (p : α → Bool) (l : List α) :
    (l.dropWhile p).dropWhile p = l.dropWhile p := by
  induction l with
  | nil => rfl
  | cons a t ih =>
    rw [List.dropWhile_cons]
    split_ifs with h
    · exact ih
    · rw [List.dropWhile_cons, if_neg h]

/-- A list is recovered from its right-stripped part and the stripped
suffix. -/
theorem dropRightWhile_append (p : α → Bool) (l : List α) :
    dropRightWhile p l ++ (l.reverse.takeWhile p).reverse = l := by
  rw [dropRightWhile, ← List.reverse_append, List.takeWhile_append_dropWhile,
    List.reverse_reverse]

/-- Right-stripping preserves the property of being left-stripped. -/
theorem dropWhile_dropRightWhile (p : α → Bool) (l : List α)
    (h : l.dropWhile p = l) :
    (dropRightWhile p l).dropWhile p = dropRightWhile p l := by
  cases l with
  | nil => simp [dropRightWhile]
  | cons c t =>
    have hpc : p c = false := by
      by_contra hpc
      rw [Bool.not_eq_false] at hpc
      rw [List.dropWhile_cons, if_pos hpc] at h
      have hl := congrArg List.length h
      have hle : (t.dropWhile p).length ≤ t.length :=
        (List.dropWhile_sublist p).length_le
      simp only [List.length_cons] at hl
      omega
    cases hd : dropRightWhile p (c :: t) with
    | nil => rfl
    | cons x xs =>
      have hdec := dropRightWhile_append p (c :: t)
      rw [hd] at hdec
      have hx : x = c := by
        have := congrArg List.head? hdec
        simpa using this
      subst hx
      rw [List.dropWhile_cons, if_neg (by rw [hpc]; exact Bool.false_ne_true)]

/-- Right-stripping is idempotent. -/
theorem dropRightWhile_idem (p : α → Bool) (l : List α) :
    dropRightWhile p (dropRightWhile p l) = dropRightWhile p l := by
  rw [dropRightWhile, dropRightWhile, List.reverse_reverse, dropWhile_idem]

/-- Stripping both ends is idempotent. -/
theorem stripChars_idem (p : Char → Bool) (l : List Char) :
    stripChars p (stripChars p l) = stripChars p l := by
  rw [stripChars, stripChars]
  rw [dropWhile_dropRightWhile p _ (dropWhile_idem p l), dropRightWhile_idem]

/-- Right-stripping commutes with a map, transporting the predicate. -/
theorem dropRightWhile_map (f : α → β) (p : β → Bool) (l : List α) :
    dropRightWhile p (l.map f) = (dropRightWhile (p ∘ f) l).map f := by
  rw [dropRightWhile, dropRightWhile, ← List.map_reverse, List.dropWhile_map,
    ← List.map_reverse]

/-- Stripping commutes with a character map that preserves the stripped
class. -/
theorem stripChars_map (f : Char → Char) (p : Char → Bool) (l : List Char)
    (hf : ∀ c, p (f c) = p c) :
    stripChars p (l.map f) = (stripChars p l).map f := by
  have hpf : (p ∘ f) = p := funext hf
  rw [stripChars, stripChars, List.dropWhile_map, dropRightWhile_map, hpf]

/-- Stripping an already-stripped-and-uppercased string changes nothing. -/
theorem pyStrip_fix (s : String) :
    pyStrip (pyUpper (pyStrip s)) = pyUpper (pyStrip s) := by
  simp only [pyStrip, pyUpper, toList_mk]
  rw [stripChars_map upChar isPySpace _ isPySpace_upChar, stripChars_idem]

/-- Uppercasing is idempotent. -/
theorem pyUpper_pyUpper (s : String) :
    pyUpper (pyUpper s) = pyUpper s := by
  simp only [pyUpper, toList_mk, List.map_map]
  have h : upChar ∘ upChar = upChar := funext upChar_upChar
  rw [h]

/-- Every value stored in the alias table is a fixed point of
`normalize_lang`. -/
theorem normalize_lang_alias_values :
    ∀ p ∈ LANG_ALIASES, normalize_lang p.2 = p.2 := by decide

/-- Claim C9: `"brazilian"` normalizes to `PT-BR`, which passes the shape
check; an input missing from the alias table is upper-cased (after
stripping) and passed through; `"xx-yy-zz"` passes through as
`"XX-YY-ZZ"`, which fails the shape check (length 8). -/
theorem claim_C9_lang_normalization :
    normalize_lang "brazilian" = "PT-BR" ∧
    validLangShape (normalize_lang "brazilian") = true ∧
    (∀ s, aliasLookup (canonicalKey s) = none →
      normalize_lang s = pyUpper (pyStrip s)) ∧
    normalize_lang "xx-yy-zz" = "XX-YY-ZZ" ∧
    validLangShape "XX-YY-ZZ" = false := by
  refine ⟨by decide, by decide, ?_, by decide, by decide⟩
  intro s h
  rw [normalize_lang, h]

/-- Witness for `claim_C9_lang_normalization`: an unrecognized input is
upper-cased and passed through. -/
theorem claim_C9_witness :
    normalize_lang "hrvatski" = pyUpper (pyStrip "hrvatski") :=
  claim_C9_lang_normalization.2.2.1 "hrvatski" (by decide)

/-- Claim C10 as stated is false on the code: Python case mapping is not
injective, so upper-casing can land an unrecognized input's passthrough on
an alias key.  `"brazılıan"` (with dotless `ı`) misses the alias table and
passes through as `"BRAZILIAN"` (`ı` upper-cases to the ASCII `I`), but
normalizing `"BRAZILIAN"` hits the alias `"brazilian"` and yields
`"PT-BR"`, so idempotence fails at `"brazılıan"`. -/
theorem claim_C10_counterexample :
    normalize_lang "brazılıan" = "BRAZILIAN" ∧
    normalize_lang "BRAZILIAN" = "PT-BR" ∧
    normalize_lang (normalize_lang "brazılıan") ≠ normalize_lang "brazılıan" := by
  refine ⟨by decide, by decide, by decide⟩

/-- Claim C10 amended: `normalize_lang` is idempotent on every input whose
canonical key hits the alias table, and on every input whose upper-cased
passthrough's canonical key also misses it; every alias-table value is a
fixed point, and so is every upper-cased passthrough whose canonical key
misses the table.  (Unrestricted idempotence fails only when upper-casing
moves a missed key onto an alias key, as with dotless `ı`.) -/
theorem claim_C10_amended :
    (∀ s, (aliasLookup (canonicalKey s) = none →
        aliasLookup (canonicalKey (pyUpper (pyStrip s))) = none) →
      normalize_lang (normalize_lang s) = normalize_lang s) ∧
    (∀ p ∈ LANG_ALIASES, normalize_lang p.2 = p.2) ∧
    (∀ s, aliasLookup (canonicalKey (pyUpper (pyStrip s))) = none →
      normalize_lang (pyUpper (pyStrip s)) = pyUpper (pyStrip s)) := by
  have hpass : ∀ s, aliasLookup (canonicalKey (pyUpper (pyStrip s))) = none →
      normalize_lang (pyUpper (pyStrip s)) = pyUpper (pyStrip s) := by
    intro s h
    rw [normalize_lang, h, pyStrip_fix, pyUpper_pyUpper]
  refine ⟨?_, normalize_lang_alias_values, hpass⟩
  intro s himp
  cases h : aliasLookup (canonicalKey s) with
  | some v =>
    have hn : normalize_lang s = v := by rw [normalize_lang, h]
    rw [hn]
    obtain ⟨p, hfind, hv⟩ := Option.map_eq_some'.1 h
    rw [← hv]
    exact normalize_lang_alias_values p (List.mem_of_find?_eq_some hfind)
  | none =>
    have hn : normalize_lang s = pyUpper (pyStrip s) := by
      rw [normalize_lang, h]
    rw [hn]
    exact hpass s (himp h)

/-- Witness for `claim_C10_amended` at concrete inputs. -/
theorem claim_C10_amended_witness :
    normalize_lang (normalize_lang "Deutsch") = normalize_lang "Deutsch" ∧
    normalize_lang "PT-BR" = "PT-BR" ∧
    normalize_lang (pyUpper (pyStrip "qq")) = pyUpper (pyStrip "qq") :=
  ⟨claim_C10_amended.1 "Deutsch" (by decide),
   claim_C10_amended.2.1 ("pt-br", "PT-BR") (by decide),
   claim_C10_amended.2.2 "qq" (by decide)⟩

end WcCsv
